import Mathlib

/-!
Verification development for the MMR (Merkle Mountain Range) proof-verification
core in src/storage/src/mmr/verification.rs.

The file embeds verify_range_inclusion, verify_element_inclusion and
peak_hash_from_range shallowly: machine integers become Nat (no arithmetic in
the verifier can overflow a u64 on the inputs the enumerator produces, and the
claims under study concern the subtractions and indexing, which are modelled
with explicit guards), iterators become explicit list cursors, and fallible
code returns an explicit result type.  Recursion on the halving subtree width
is realised structurally through a fuel argument that is always instantiated
with a sufficient value; fuel-independence is proved.

The domain hasher (hasher.rs) and the peak enumerator (iterator.rs) are not
part of the sources under study; they are modelled from the specification.
-/

namespace MMRVerify

/-- Modelled from the spec: a fixed-size hash value (spec section 3) together
with the three domain-separated hash constructions of the Domain Hasher
(spec section 4.1, hasher.rs is outside the studied sources).  The hasher is
idealised as a free term algebra: the leaf, node and root constructions have
disjoint images and are injective, which is exactly the collision-freeness
and domain separation the spec demands of it. -/
inductive Digest where
  | raw : Nat → Digest
  | leafH : Nat → Digest → Digest
  | nodeH : Nat → Digest → Digest → Digest
  | rootSeed : Nat → Digest
  | rootStep : Digest → Digest → Digest
deriving DecidableEq

/-- Modelled from the spec: leaf_hash(position, element) of section 4.1. -/
def leaf_hash (pos : Nat) (element : Digest) : Digest := .leafH pos element

/-- Modelled from the spec: node_hash(position, left, right) of section 4.1. -/
def node_hash (pos : Nat) (l r : Digest) : Digest := .nodeH pos l r

/-- Modelled from the spec: root_hash(size, ordered peak hashes) of
section 4.1 (the bagging of the peaks): the hasher absorbs the size and then
each peak hash in order, modelled as a left fold over the free algebra, which
encodes the pair (size, peak hash list) injectively and in a domain disjoint
from leaf and node hashes. -/
def root_hash (size : Nat) (peakHashes : List Digest) : Digest :=
  peakHashes.foldl .rootStep (.rootSeed size)

/-- Largest height h such that a perfect subtree of height h, which has
2^(h+1) - 1 nodes, fits into size nodes.  The fuel argument makes the search
structural; fuel = size is always sufficient because h ≤ size. -/
def maxHeightAux : Nat → Nat → Nat → Nat
  | 0, _, cand => cand
  | fuel+1, size, cand =>
      if 2 ^ (cand + 2) - 1 ≤ size then maxHeightAux fuel size (cand + 1)
      else cand

def maxHeight (size : Nat) : Nat := maxHeightAux size size 0

/-- Modelled from the spec: the Peak Enumerator (spec section 4.2,
iterator.rs is outside the studied sources).  Given a node count it produces
the ordered (position, height) pairs of the maximal perfect subtrees covering
the nodes, greedily taking the largest perfect subtree that fits, exactly as
the binary-counter decomposition of the spec describes; each peak position is
computed incrementally from the running offset, and the leftmost node of a
peak at (pos, h) is pos + 2 - 2^(h+1). -/
def peaksAux : Nat → Nat → Nat → List (Nat × Nat)
  | 0, _, _ => []
  | fuel+1, offset, size =>
      if size = 0 then []
      else
        let h := maxHeight size
        (offset + 2 ^ (h + 1) - 2, h) ::
          peaksAux fuel (offset + 2 ^ (h + 1) - 1) (size - (2 ^ (h + 1) - 1))

def peaks (size : Nat) : List (Nat × Nat) := peaksAux size 0 size

/-- Result of peak_hash_from_range: an Ok digest together with the remaining
element cursor and the remaining backward sibling cursor, the Err(()) of the
Rust code, a marker for a panic (failed assertion, u64 underflow), and a
marker for fuel exhaustion (an artefact of the embedding, proved
unreachable). -/
inductive PRes where
  | ok : Digest → List Digest → List Digest → PRes
  | err : PRes
  | panic : PRes
  | nofuel : PRes
deriving DecidableEq

/-- Intermediate state inside one node of peak_hash_from_range: an optional
child hash (None when the child was not descended into) plus the two
cursors. -/
inductive SRes where
  | ok : Option Digest → List Digest → List Digest → SRes
  | err : SRes
  | panic : SRes
  | nofuel : SRes

/-- Shallow embedding of peak_hash_from_range from verification.rs, on fuel.
The body mirrors the Rust function line by line: the assert_ne!(two_h, 0) and
the u64 subtraction node_pos - two_h are modelled as explicit panic guards;
left_hash and right_hash start as None, the function first descends left when
left_pos >= leftmost_pos, then descends right when left_pos < rightmost_pos,
and only afterwards fills a still-missing left hash and then a still-missing
right hash from the backward sibling cursor, erroring when the cursor is
exhausted. -/
def peakAux : Nat → Nat → Nat → Nat → Nat → List Digest → List Digest → PRes
  | 0, _, _, _, _, _, _ => .nofuel
  | fuel+1, node_pos, two_h, leftmost_pos, rightmost_pos, els, sibs =>
    if two_h = 0 then .panic
    else if two_h = 1 then
      match els with
      | e :: rest => .ok (leaf_hash node_pos e) rest sibs
      | [] => .err
    else if node_pos < two_h then .panic
    else
      let left_pos := node_pos - two_h
      let right_pos := left_pos + two_h - 1
      let s1 : SRes :=
        if leftmost_pos ≤ left_pos then
          match peakAux fuel left_pos (two_h / 2) leftmost_pos rightmost_pos els sibs with
          | .ok h e s => .ok (some h) e s
          | .err => .err
          | .panic => .panic
          | .nofuel => .nofuel
        else .ok none els sibs
      match s1 with
      | .err => .err
      | .panic => .panic
      | .nofuel => .nofuel
      | .ok leftHash els1 sibs1 =>
        let s2 : SRes :=
          if left_pos < rightmost_pos then
            match peakAux fuel right_pos (two_h / 2) leftmost_pos rightmost_pos els1 sibs1 with
            | .ok h e s => .ok (some h) e s
            | .err => .err
            | .panic => .panic
            | .nofuel => .nofuel
          else .ok none els1 sibs1
        match s2 with
        | .err => .err
        | .panic => .panic
        | .nofuel => .nofuel
        | .ok rightHash els2 sibs2 =>
          match leftHash with
          | some lh =>
            match rightHash with
            | some rh => .ok (node_hash node_pos lh rh) els2 sibs2
            | none =>
              match sibs2 with
              | s :: rest => .ok (node_hash node_pos lh s) els2 rest
              | [] => .err
          | none =>
            match sibs2 with
            | [] => .err
            | s :: rest =>
              match rightHash with
              | some rh => .ok (node_hash node_pos s rh) els2 rest
              | none =>
                match rest with
                | s' :: rest' => .ok (node_hash node_pos s s') els2 rest'
                | [] => .err

/-- peak_hash_from_range of verification.rs.  Fuel two_h + 1 is sufficient
because the subtree width at least halves on every recursive call (proved
below as fuel-independence). -/
def peak_hash_from_range (node_pos two_h leftmost_pos rightmost_pos : Nat)
    (els sibs : List Digest) : PRes :=
  peakAux (two_h + 1) node_pos two_h leftmost_pos rightmost_pos els sibs

/-- Modelled from the spec: the reconstruct procedure of section 4.4, read
literally as written there: the left step resolves completely (recursion when
the left subtree overlaps the range, otherwise a pop from the backward
sibling cursor) before the right step begins.  This is the comparison point
for the refinement claim about sibling consumption order. -/
def reconstructAux : Nat → Nat → Nat → Nat → Nat → List Digest → List Digest → PRes
  | 0, _, _, _, _, _, _ => .nofuel
  | fuel+1, node_pos, two_h, leftmost_pos, rightmost_pos, els, sibs =>
    if two_h = 0 then .panic
    else if two_h = 1 then
      match els with
      | e :: rest => .ok (leaf_hash node_pos e) rest sibs
      | [] => .err
    else if node_pos < two_h then .panic
    else
      let left_pos := node_pos - two_h
      let right_pos := left_pos + two_h - 1
      match
        (if leftmost_pos ≤ left_pos then
          reconstructAux fuel left_pos (two_h / 2) leftmost_pos rightmost_pos els sibs
        else
          match sibs with
          | s :: rest => .ok s els rest
          | [] => .err) with
      | .err => .err
      | .panic => .panic
      | .nofuel => .nofuel
      | .ok lh els1 sibs1 =>
        match
          (if left_pos < rightmost_pos then
            reconstructAux fuel right_pos (two_h / 2) leftmost_pos rightmost_pos els1 sibs1
          else
            match sibs1 with
            | s :: rest => .ok s els1 rest
            | [] => .err) with
        | .err => .err
        | .panic => .panic
        | .nofuel => .nofuel
        | .ok rh els2 sibs2 => .ok (node_hash node_pos lh rh) els2 sibs2

def reconstruct (node_pos two_h leftmost_pos rightmost_pos : Nat)
    (els sibs : List Digest) : PRes :=
  reconstructAux (two_h + 1) node_pos two_h leftmost_pos rightmost_pos els sibs

/-- A Proof as in verification.rs: the claimed total node count and the flat
hash sequence. -/
structure Proof where
  size : Nat
  hashes : List Digest
deriving DecidableEq

/-- Outcome of the peak loop of verify_range_inclusion: a panic marker, an
early false, or the final state: accumulated peak hashes, remaining elements
cursor, remaining backward sibling cursor, and the count of proof hashes
consumed by the forward cursor. -/
inductive VRes where
  | panic : VRes
  | fail : VRes
  | done : List Digest → List Digest → List Digest → Nat → VRes
deriving DecidableEq

/-- The peak loop of verify_range_inclusion, one step per enumerated peak.
fwd is the remaining forward cursor over the proof hashes, els the remaining
elements cursor, sibs the remaining backward cursor (the reversed hash list),
used the number of hashes the forward cursor has consumed, acc the peak
hashes gathered so far.  The u64 subtraction peak_pos + 2 - (1 << (height+1))
is guarded as a panic. -/
def verifyLoop (start_pos end_pos : Nat) :
    List (Nat × Nat) → List Digest → List Digest → List Digest → Nat → List Digest → VRes
  | [], _, els, sibs, used, acc => .done acc els sibs used
  | (peak_pos, height) :: rest, fwd, els, sibs, used, acc =>
    if peak_pos + 2 < 2 ^ (height + 1) then .panic
    else
      let leftmost_pos := peak_pos + 2 - 2 ^ (height + 1)
      if start_pos ≤ peak_pos ∧ leftmost_pos ≤ end_pos then
        match peak_hash_from_range peak_pos (2 ^ height) start_pos end_pos els sibs with
        | .ok h els' sibs' =>
            verifyLoop start_pos end_pos rest fwd els' sibs' used (acc ++ [h])
        | .err => .fail
        | .panic => .panic
        | .nofuel => .panic
      else
        match fwd with
        | h :: fwd' => verifyLoop start_pos end_pos rest fwd' els sibs (used + 1) (acc ++ [h])
        | [] => .fail

/-- verify_range_inclusion with the panic-possibility made explicit: none is
a panic, some b is the returned boolean.  After the peak loop the code checks
that the elements cursor is exhausted, then performs the anti-malleability
check: if the backward cursor still holds a hash, the proof is rejected when
no forward hash was consumed at all, or when that next-from-back hash differs
from the last hash the forward cursor consumed (the indexing of self.hashes
at proof_hashes_used - 1 is guarded here as a potential panic); finally the root
is recomputed from the gathered peak hashes and compared. -/
def verifyR (p : Proof) (elements : List Digest)
    (start_element_pos end_element_pos : Nat) (root : Digest) : Option Bool :=
  match verifyLoop start_element_pos end_element_pos (peaks p.size)
      p.hashes elements p.hashes.reverse 0 [] with
  | .panic => none
  | .fail => some false
  | .done peakHashes els sibs used =>
    match els with
    | _ :: _ => some false
    | [] =>
      match sibs with
      | [] => some (decide (root = root_hash p.size peakHashes))
      | s :: _ =>
        if used = 0 then some false
        else
          match p.hashes.get? (used - 1) with
          | none => none
          | some lastUsed =>
            if s = lastUsed then some (decide (root = root_hash p.size peakHashes))
            else some false

/-- verify_range_inclusion from verification.rs as the boolean the Rust
function returns (the safety claim below proves the panic marker is
unreachable, so the default never fires). -/
def verify_range_inclusion (p : Proof) (elements : List Digest)
    (start_element_pos end_element_pos : Nat) (root : Digest) : Bool :=
  (verifyR p elements start_element_pos end_element_pos root).getD false

/-- verify_element_inclusion from verification.rs: delegates to
verify_range_inclusion on the singleton element list with the element's
position as both ends of the range. -/
def verify_element_inclusion (p : Proof) (element : Digest) (element_pos : Nat)
    (root : Digest) : Bool :=
  verify_range_inclusion p [element] element_pos element_pos root

/-! Helper lemmas. -/

/-- The fuel argument of peakAux is irrelevant as soon as it exceeds the
subtree width: the width at least halves on every recursive call. -/
theorem peakAux_fuel_eq : ∀ f g two_h : Nat, two_h < f → two_h < g →
    ∀ node_pos l r els sibs,
      peakAux f node_pos two_h l r els sibs = peakAux g node_pos two_h l r els sibs := by
  intro f
  induction f with
  | zero => intro g two_h hf; exact absurd hf (Nat.not_lt_zero _)
  | succ f' IH =>
    intro g two_h hf hg node_pos l r els sibs
    obtain ⟨g', rfl⟩ : ∃ g', g = g' + 1 := ⟨g - 1, by omega⟩
    by_cases h0 : two_h = 0
    · subst h0; simp [peakAux]
    by_cases h1 : two_h = 1
    · subst h1; simp [peakAux]
    have hh : two_h / 2 < f' := by omega
    have hh' : two_h / 2 < g' := by omega
    simp only [peakAux, if_neg h0, if_neg h1]
    by_cases hnp : node_pos < two_h
    · simp only [if_pos hnp]
    · simp only [if_neg hnp, IH g' (two_h / 2) hh hh']

/-- With sufficient fuel, peakAux never reports fuel exhaustion. -/
theorem peakAux_ne_nofuel : ∀ f two_h : Nat, two_h < f →
    ∀ node_pos l r els sibs, peakAux f node_pos two_h l r els sibs ≠ .nofuel := by
  intro f
  induction f with
  | zero => intro two_h hf; exact absurd hf (Nat.not_lt_zero _)
  | succ f' IH =>
    intro two_h hf node_pos l r els sibs
    by_cases h0 : two_h = 0
    · subst h0; simp [peakAux]
    by_cases h1 : two_h = 1
    · subst h1; cases els <;> simp [peakAux]
    have hh : two_h / 2 < f' := by omega
    simp only [peakAux, if_neg h0, if_neg h1]
    by_cases hnp : node_pos < two_h
    · simp only [if_pos hnp]; simp
    simp only [if_neg hnp]
    by_cases hlc : l ≤ node_pos - two_h
    · simp only [if_pos hlc]
      cases hL : peakAux f' (node_pos - two_h) (two_h / 2) l r els sibs with
      | ok hd he hs =>
        simp only
        by_cases hrc : node_pos - two_h < r
        · simp only [if_pos hrc]
          cases hR : peakAux f' (node_pos - two_h + two_h - 1) (two_h / 2) l r he hs with
          | ok hd2 he2 hs2 => simp
          | err => simp
          | panic => simp
          | nofuel => exact absurd hR (IH (two_h / 2) hh _ _ _ _ _)
        · simp only [if_neg hrc]
          cases hs <;> simp
      | err => simp
      | panic => simp
      | nofuel => exact absurd hL (IH (two_h / 2) hh _ _ _ _ _)
    · simp only [if_neg hlc]
      by_cases hrc : node_pos - two_h < r
      · simp only [if_pos hrc]
        cases hR : peakAux f' (node_pos - two_h + two_h - 1) (two_h / 2) l r els sibs with
        | ok hd2 he2 hs2 => cases hs2 <;> simp
        | err => simp
        | panic => simp
        | nofuel => exact absurd hR (IH (two_h / 2) hh _ _ _ _ _)
      · simp only [if_neg hrc]
        cases sibs with
        | nil => simp
        | cons s1 rest => cases rest <;> simp

/-- For a subtree width that is a power of two and a node position admitting
the full subtree to its left (2^(h+1) ≤ node_pos + 2, the shape in which the
peak enumerator and the recursion itself produce positions), peakAux never
hits a panic guard: the assert two_h ≠ 0 holds and node_pos - two_h cannot
underflow, at this node and at every node reached below it. -/
theorem peakAux_pow_ne_panic : ∀ f h node_pos l r : Nat, ∀ els sibs : List Digest,
    2 ^ (h + 1) ≤ node_pos + 2 → 2 ^ h < f →
    peakAux f node_pos (2 ^ h) l r els sibs ≠ .panic := by
  intro f
  induction f with
  | zero => intro h _ _ _ _ _ hpos hf; exact absurd hf (Nat.not_lt_zero _)
  | succ f' IH =>
    intro h node_pos l r els sibs hpos hf
    have hp : 0 < 2 ^ h := Nat.pow_pos (by norm_num)
    cases h with
    | zero =>
      simp only [pow_zero]
      cases els <;> simp [peakAux]
    | succ k =>
      have hpk : 0 < 2 ^ k := Nat.pow_pos (by norm_num)
      have e1 : 2 ^ (k + 1) = 2 ^ k * 2 := pow_succ 2 k
      have e2 : 2 ^ (k + 2) = 2 ^ (k + 1) * 2 := pow_succ 2 (k + 1)
      have h0 : ¬ (2 : Nat) ^ (k + 1) = 0 := by omega
      have h1 : ¬ (2 : Nat) ^ (k + 1) = 1 := by omega
      have hnp : ¬ node_pos < 2 ^ (k + 1) := by omega
      have hdiv : 2 ^ (k + 1) / 2 = 2 ^ k := by
        rw [e1]; exact Nat.mul_div_cancel _ (by norm_num)
      have hfk : 2 ^ k < f' := by omega
      have hposL : 2 ^ (k + 1) ≤ (node_pos - 2 ^ (k + 1)) + 2 := by omega
      have hposR : 2 ^ (k + 1) ≤ (node_pos - 2 ^ (k + 1) + 2 ^ (k + 1) - 1) + 2 := by omega
      simp only [peakAux, if_neg h0, if_neg h1, if_neg hnp, hdiv]
      by_cases hlc : l ≤ node_pos - 2 ^ (k + 1)
      · simp only [if_pos hlc]
        cases hL : peakAux f' (node_pos - 2 ^ (k + 1)) (2 ^ k) l r els sibs with
        | ok hd he hs =>
          simp only
          by_cases hrc : node_pos - 2 ^ (k + 1) < r
          · simp only [if_pos hrc]
            cases hR : peakAux f' (node_pos - 2 ^ (k + 1) + 2 ^ (k + 1) - 1) (2 ^ k) l r he hs with
            | ok hd2 he2 hs2 => simp
            | err => simp
            | panic => exact absurd hR (IH k _ l r he hs hposR hfk)
            | nofuel => simp
          · simp only [if_neg hrc]
            cases hs <;> simp
        | err => simp
        | panic => exact absurd hL (IH k _ l r els sibs hposL hfk)
        | nofuel => simp
      · simp only [if_neg hlc]
        by_cases hrc : node_pos - 2 ^ (k + 1) < r
        · simp only [if_pos hrc]
          cases hR : peakAux f' (node_pos - 2 ^ (k + 1) + 2 ^ (k + 1) - 1) (2 ^ k) l r els sibs with
          | ok hd2 he2 hs2 => cases hs2 <;> simp
          | err => simp
          | panic => exact absurd hR (IH k _ l r els sibs hposR hfk)
          | nofuel => simp
        · simp only [if_neg hrc]
          cases sibs with
          | nil => simp
          | cons s1 rest => cases rest <;> simp

/-- Every peak the enumerator produces has its full perfect subtree to its
left: 2^(height+1) ≤ position + 2, so the leftmost-position subtraction of
the verifier cannot underflow. -/
theorem peaksAux_mem_shape : ∀ fuel offset size : Nat, ∀ pk ∈ peaksAux fuel offset size,
    2 ^ (pk.2 + 1) ≤ pk.1 + 2 := by
  intro fuel
  induction fuel with
  | zero => intro offset size pk hpk; simp [peaksAux] at hpk
  | succ f IH =>
    intro offset size pk hpk
    by_cases hs : size = 0
    · rw [hs] at hpk; simp [peaksAux] at hpk
    · simp only [peaksAux, if_neg hs, List.mem_cons] at hpk
      rcases hpk with rfl | htail
      · have hp : 0 < 2 ^ maxHeight size := Nat.pow_pos (by norm_num)
        have e1 : 2 ^ (maxHeight size + 1) = 2 ^ maxHeight size * 2 := pow_succ 2 _
        simp only
        omega
      · exact IH _ _ _ htail

/-- The forward cursor cannot consume more hashes than it holds: the final
used counter is bounded by the starting counter plus the remaining forward
cursor length. -/
theorem verifyLoop_used_le : ∀ (s e : Nat) (pks : List (Nat × Nat))
    (fwd els sibs : List Digest) (used : Nat) (acc a e2 s2 : List Digest) (u2 : Nat),
    verifyLoop s e pks fwd els sibs used acc = .done a e2 s2 u2 →
    u2 ≤ used + fwd.length := by
  intro s e pks
  induction pks with
  | nil =>
    intro fwd els sibs used acc a e2 s2 u2 hdone
    simp only [verifyLoop, VRes.done.injEq] at hdone
    omega
  | cons pk rest IH =>
    intro fwd els sibs used acc a e2 s2 u2 hdone
    obtain ⟨pp, ph⟩ := pk
    simp only [verifyLoop] at hdone
    by_cases hg : pp + 2 < 2 ^ (ph + 1)
    · rw [if_pos hg] at hdone; exact absurd hdone (by simp)
    rw [if_neg hg] at hdone
    by_cases hc : s ≤ pp ∧ pp + 2 - 2 ^ (ph + 1) ≤ e
    · rw [if_pos hc] at hdone
      cases hpk : peak_hash_from_range pp (2 ^ ph) s e els sibs with
      | ok hd he hs =>
        rw [hpk] at hdone
        exact IH _ _ _ _ _ _ _ _ _ hdone
      | err => rw [hpk] at hdone; exact absurd hdone (by simp)
      | panic => rw [hpk] at hdone; exact absurd hdone (by simp)
      | nofuel => rw [hpk] at hdone; exact absurd hdone (by simp)
    · rw [if_neg hc] at hdone
      cases fwd with
      | nil => exact absurd hdone (by simp)
      | cons f1 fr =>
        have := IH _ _ _ _ _ _ _ _ _ hdone
        simp only [List.length_cons]
        omega

/-- The peak loop never panics when every peak it is fed has the enumerator
shape 2^(height+1) ≤ position + 2: the leftmost-position subtraction is then
safe, and the recursive reconstruction is entered only on positions carrying
their full subtree. -/
theorem verifyLoop_ne_panic : ∀ (s e : Nat) (pks : List (Nat × Nat)),
    (∀ pk ∈ pks, 2 ^ (pk.2 + 1) ≤ pk.1 + 2) →
    ∀ fwd els sibs used acc,
      verifyLoop s e pks fwd els sibs used acc ≠ .panic := by
  intro s e pks
  induction pks with
  | nil => intro _ fwd els sibs used acc; simp [verifyLoop]
  | cons pk rest IH =>
    intro hshape fwd els sibs used acc
    obtain ⟨pp, ph⟩ := pk
    have hhd : 2 ^ (ph + 1) ≤ pp + 2 := hshape (pp, ph) (List.mem_cons_self _ _)
    have htl : ∀ pk ∈ rest, 2 ^ (pk.2 + 1) ≤ pk.1 + 2 :=
      fun pk hpk => hshape pk (List.mem_cons_of_mem _ hpk)
    simp only [verifyLoop, if_neg (show ¬ pp + 2 < 2 ^ (ph + 1) by omega)]
    by_cases hc : s ≤ pp ∧ pp + 2 - 2 ^ (ph + 1) ≤ e
    · rw [if_pos hc]
      cases hpk : peak_hash_from_range pp (2 ^ ph) s e els sibs with
      | ok hd he hs => exact IH htl _ _ _ _ _
      | err => simp
      | panic =>
        simp only [peak_hash_from_range] at hpk
        exact absurd hpk (peakAux_pow_ne_panic (2 ^ ph + 1) ph pp s e els sibs hhd (by omega))
      | nofuel =>
        simp only [peak_hash_from_range] at hpk
        exact absurd hpk (peakAux_ne_nofuel (2 ^ ph + 1) (2 ^ ph) (by omega) _ _ _ _ _)
    · rw [if_neg hc]
      cases fwd with
      | nil => simp
      | cons f1 fr => exact IH htl _ _ _ _ _

/-! Claim theorems. -/

/-- C3: for every input — any proof size, hash vector, element slice,
position range and expected root — verify_range_inclusion neither panics nor
raises: the explicit panic markers guarding the assertion in
peak_hash_from_range, the subtractions peak_pos + 2 - 2^(height+1) and
node_pos - two_h, and the indexing of hashes at proof_hashes_used - 1 are
all unreachable, and the computation always lands on a boolean (every
failure mode yielding false). -/
theorem C3_verify_never_panics (p : Proof) (elements : List Digest) (s e : Nat)
    (root : Digest) :
    verifyR p elements s e root = some (verify_range_inclusion p elements s e root) := by
  have hex : ∃ b, verifyR p elements s e root = some b := by
    unfold verifyR
    cases hloop : verifyLoop s e (peaks p.size) p.hashes elements p.hashes.reverse 0 [] with
    | panic =>
      exact absurd hloop
        (verifyLoop_ne_panic s e (peaks p.size)
          (fun pk hpk => peaksAux_mem_shape p.size 0 p.size pk hpk) _ _ _ _ _)
    | fail => exact ⟨false, rfl⟩
    | done a e2 s2 u2 =>
      cases e2 with
      | cons x xs => exact ⟨false, rfl⟩
      | nil =>
        cases s2 with
        | nil => exact ⟨_, rfl⟩
        | cons sh ss =>
          simp only
          by_cases hu : u2 = 0
          · rw [if_pos hu]; exact ⟨false, rfl⟩
          · rw [if_neg hu]
            have hle : u2 ≤ 0 + p.hashes.length :=
              verifyLoop_used_le s e (peaks p.size) p.hashes elements
                p.hashes.reverse 0 [] a [] (sh :: ss) u2 hloop
            have hlt : u2 - 1 < p.hashes.length := by omega
            rw [List.get?_eq_get hlt]
            by_cases heq : sh = p.hashes.get ⟨u2 - 1, hlt⟩
            · refine ⟨decide (root = root_hash p.size a), ?_⟩
              show (if sh = p.hashes.get ⟨u2 - 1, hlt⟩
                  then some (decide (root = root_hash p.size a)) else some false) = _
              rw [if_pos heq]
            · refine ⟨false, ?_⟩
              show (if sh = p.hashes.get ⟨u2 - 1, hlt⟩
                  then some (decide (root = root_hash p.size a)) else some false) = _
              rw [if_neg heq]
  obtain ⟨b, hb⟩ := hex
  rw [hb]
  show some b = some ((verifyR p elements s e root).getD false)
  rw [hb]
  rfl

/-- C6: whenever the peak loop finishes with the elements cursor still
holding an item, verify_range_inclusion returns false, before any root
comparison and for every expected root. -/
theorem C6_unconsumed_elements_rejected (p : Proof) (elements : List Digest)
    (s e : Nat) (root : Digest) (acc : List Digest) (x : Digest)
    (rest sibs : List Digest) (used : Nat)
    (hloop : verifyLoop s e (peaks p.size) p.hashes elements p.hashes.reverse 0 [] =
      .done acc (x :: rest) sibs used) :
    verify_range_inclusion p elements s e root = false := by
  unfold verify_range_inclusion verifyR
  rw [hloop]
  rfl

/-- C6 witness: a single-leaf MMR, the correct element for position 0 plus
one extra claimed element; the loop ends with the extra element unconsumed
and verification rejects even against the root that matches the gathered
peak hashes. -/
theorem C6_unconsumed_elements_witness :
    verifyLoop 0 0 (peaks 1) [] [Digest.raw 3, Digest.raw 4] [] 0 [] =
      .done [leaf_hash 0 (.raw 3)] [.raw 4] [] 0 ∧
    verify_range_inclusion ⟨1, []⟩ [Digest.raw 3, Digest.raw 4] 0 0
      (root_hash 1 [leaf_hash 0 (.raw 3)]) = false :=
  ⟨by decide,
   C6_unconsumed_elements_rejected ⟨1, []⟩ [Digest.raw 3, Digest.raw 4] 0 0
     (root_hash 1 [leaf_hash 0 (.raw 3)]) [leaf_hash 0 (.raw 3)] (.raw 4) [] [] 0
     (by decide)⟩

/-- C7: verify_element_inclusion is exactly verify_range_inclusion on the
singleton element list with both range endpoints at the element's
position, for every element, position, root and proof. -/
theorem C7_element_inclusion_delegates (p : Proof) (element : Digest)
    (element_pos : Nat) (root : Digest) :
    verify_element_inclusion p element element_pos root =
      verify_range_inclusion p [element] element_pos element_pos root := rfl

/-- C8: whenever the peak loop finishes with the backward sibling cursor
exhausted (and the elements cursor empty), the anti-malleability check never
rejects: the result is exactly the root comparison, whatever the forward
consumption count was. -/
theorem C8_exhausted_siblings_skip_check (p : Proof) (elements : List Digest)
    (s e : Nat) (root : Digest) (acc : List Digest) (used : Nat)
    (hloop : verifyLoop s e (peaks p.size) p.hashes elements p.hashes.reverse 0 [] =
      .done acc [] [] used) :
    verify_range_inclusion p elements s e root = decide (root = root_hash p.size acc) := by
  unfold verify_range_inclusion verifyR
  rw [hloop]
  rfl

/-- C8 witness: a four-node MMR and a crafted proof whose single hash is
consumed by the forward cursor and by the backward cursor simultaneously
(overlapping consumption, used = 1): the backward cursor ends exhausted, the
check is skipped, and verification accepts against the matching root. -/
theorem C8_exhausted_siblings_witness :
    verifyLoop 1 1 (peaks 4) [leaf_hash 0 (.raw 20)] [Digest.raw 21]
        [leaf_hash 0 (.raw 20)] 0 [] =
      .done [node_hash 2 (leaf_hash 0 (.raw 20)) (leaf_hash 1 (.raw 21)),
             leaf_hash 0 (.raw 20)] [] [] 1 ∧
    verify_range_inclusion ⟨4, [leaf_hash 0 (.raw 20)]⟩ [Digest.raw 21] 1 1
      (root_hash 4 [node_hash 2 (leaf_hash 0 (.raw 20)) (leaf_hash 1 (.raw 21)),
                    leaf_hash 0 (.raw 20)]) = true :=
  ⟨by decide,
   C8_exhausted_siblings_skip_check ⟨4, [leaf_hash 0 (.raw 20)]⟩ [Digest.raw 21] 1 1
     (root_hash 4 [node_hash 2 (leaf_hash 0 (.raw 20)) (leaf_hash 1 (.raw 21)),
                   leaf_hash 0 (.raw 20)])
     [node_hash 2 (leaf_hash 0 (.raw 20)) (leaf_hash 1 (.raw 21)),
      leaf_hash 0 (.raw 20)] 1
     (by decide)⟩

/-- C4: one step of the peak loop.  The peak's leftmost position is computed
as peak_pos + 2 - 2^(height+1); the peak counts as entirely outside the
range exactly when peak_pos < start or leftmost > end (the De Morgan dual of
the code's condition); for such a peak the next hash is popped from the
forward cursor as the peak's hash, and an exhausted forward cursor fails the
verification immediately, while an overlapping peak goes to the recursive
reconstruction. -/
theorem C4_outside_peak_pops_forward (s e peak_pos height : Nat)
    (rest : List (Nat × Nat)) (fwd els sibs : List Digest) (used : Nat)
    (acc : List Digest) (hshape : 2 ^ (height + 1) ≤ peak_pos + 2) :
    (peak_pos < s ∨ e < peak_pos + 2 - 2 ^ (height + 1) →
      verifyLoop s e ((peak_pos, height) :: rest) fwd els sibs used acc =
        match fwd with
        | h :: fwd' => verifyLoop s e rest fwd' els sibs (used + 1) (acc ++ [h])
        | [] => .fail) ∧
    (¬(peak_pos < s ∨ e < peak_pos + 2 - 2 ^ (height + 1)) →
      verifyLoop s e ((peak_pos, height) :: rest) fwd els sibs used acc =
        match peak_hash_from_range peak_pos (2 ^ height) s e els sibs with
        | .ok h els' sibs' => verifyLoop s e rest fwd els' sibs' used (acc ++ [h])
        | .err => .fail
        | .panic => .panic
        | .nofuel => .panic) := by
  constructor
  · intro hout
    simp only [verifyLoop, if_neg (show ¬ peak_pos + 2 < 2 ^ (height + 1) by omega)]
    rw [if_neg (show ¬ (s ≤ peak_pos ∧ peak_pos + 2 - 2 ^ (height + 1) ≤ e) by omega)]
  · intro hin
    simp only [verifyLoop, if_neg (show ¬ peak_pos + 2 < 2 ^ (height + 1) by omega)]
    rw [if_pos (show s ≤ peak_pos ∧ peak_pos + 2 - 2 ^ (height + 1) ≤ e by omega)]

/-- C4 witness: the single peak of a one-node MMR against the range [5,5]
lies entirely outside it, and the loop pops the forward cursor for it. -/
theorem C4_outside_peak_witness :
    (2 ^ (0 + 1) ≤ 0 + 2) ∧ ((0 : Nat) < 5 ∨ (5 : Nat) < 0 + 2 - 2 ^ (0 + 1)) ∧
    verifyLoop 5 5 [(0, 0)] [Digest.raw 0] [] [Digest.raw 0] 0 [] =
      verifyLoop 5 5 [] [] [] [Digest.raw 0] 1 [Digest.raw 0] :=
  ⟨by decide, by decide,
   (C4_outside_peak_pops_forward 5 5 0 0 [] [Digest.raw 0] [] [Digest.raw 0] 0 []
     (by decide)).1 (by decide)⟩

/-- When every peak handed to the loop lies entirely outside the claimed
range and the forward cursor holds exactly one hash per peak, the loop pops
them all in order, touching neither the elements cursor nor the backward
cursor. -/
theorem verifyLoop_all_outside (s e : Nat) : ∀ (pks : List (Nat × Nat))
    (fwd els sibs : List Digest) (used : Nat) (acc : List Digest),
    (∀ pk ∈ pks, 2 ^ (pk.2 + 1) ≤ pk.1 + 2) →
    (∀ pk ∈ pks, pk.1 < s ∨ e < pk.1 + 2 - 2 ^ (pk.2 + 1)) →
    fwd.length = pks.length →
    verifyLoop s e pks fwd els sibs used acc =
      .done (acc ++ fwd) els sibs (used + fwd.length) := by
  intro pks
  induction pks with
  | nil =>
    intro fwd els sibs used acc _ _ hlen
    cases fwd with
    | nil => simp [verifyLoop]
    | cons f1 fr => simp at hlen
  | cons pk rest IH =>
    intro fwd els sibs used acc hshape hout hlen
    obtain ⟨pp, ph⟩ := pk
    have hhd : 2 ^ (ph + 1) ≤ pp + 2 := hshape (pp, ph) (List.mem_cons_self _ _)
    have hohd := hout (pp, ph) (List.mem_cons_self _ _)
    cases fwd with
    | nil => simp at hlen
    | cons f1 fr =>
      simp only [verifyLoop, if_neg (show ¬ pp + 2 < 2 ^ (ph + 1) by omega)]
      rw [if_neg (show ¬ (s ≤ pp ∧ pp + 2 - 2 ^ (ph + 1) ≤ e) by simp only at hohd; omega)]
      rw [IH fr els sibs (used + 1) (acc ++ [f1])
        (fun pk hpk => hshape pk (List.mem_cons_of_mem _ hpk))
        (fun pk hpk => hout pk (List.mem_cons_of_mem _ hpk))
        (by simpa using hlen)]
      have h1 : acc ++ [f1] ++ fr = acc ++ f1 :: fr := by simp
      have h2 : used + 1 + fr.length = used + (f1 :: fr).length := by
        simp only [List.length_cons]; omega
      rw [h1, h2]

/-- C9: an accepting run that consumes no element exists.  Whenever every
peak of the proof's size lies entirely outside the claimed position range
(for instance when the start position exceeds every node position), a proof
whose hash list carries exactly one hash per peak verifies, with an empty
elements slice, against the bagged root of those hashes: the forward cursor
pops every hash as a peak hash, the malleability check passes because the
next-from-back hash equals the last forward-consumed hash, and the root
comparison succeeds. -/
theorem C9_outside_range_empty_elements_accepts (p : Proof) (s e : Nat)
    (hout : ∀ pk ∈ peaks p.size, pk.1 < s ∨ e < pk.1 + 2 - 2 ^ (pk.2 + 1))
    (hlen : p.hashes.length = (peaks p.size).length) :
    verify_range_inclusion p [] s e (root_hash p.size p.hashes) = true := by
  have hshape : ∀ pk ∈ peaks p.size, 2 ^ (pk.2 + 1) ≤ pk.1 + 2 :=
    fun pk hpk => peaksAux_mem_shape p.size 0 p.size pk hpk
  have hloop := verifyLoop_all_outside s e (peaks p.size) p.hashes [] p.hashes.reverse
    0 [] hshape hout hlen
  unfold verify_range_inclusion verifyR
  rw [hloop]
  simp only [List.nil_append, Nat.zero_add]
  cases hrev : p.hashes.reverse with
  | nil =>
    have hnil : p.hashes = [] := List.reverse_eq_nil_iff.mp hrev
    rw [hnil]
    simp
  | cons sh ss =>
    have hlist : p.hashes = ss.reverse ++ [sh] := by
      have := congrArg List.reverse hrev
      simpa [List.reverse_cons] using this
    have hne : p.hashes.length ≠ 0 := by
      rw [hlist]; simp
    simp only
    rw [if_neg hne]
    have hget : p.hashes.get? (p.hashes.length - 1) = some sh := by
      rw [hlist]
      have : (ss.reverse ++ [sh]).length - 1 = ss.reverse.length := by simp
      rw [this, List.get?_eq_getElem?]
      exact List.getElem?_concat_length _ _
    rw [hget]
    simp only [if_pos rfl]
    simp

/-- C9 witness: a three-node MMR, the range [10,10] beyond every node
position, an empty elements slice and the single peak hash: verification
accepts without consuming any element. -/
theorem C9_outside_range_empty_elements_witness :
    (∀ pk ∈ peaks 3, pk.1 < 10 ∨ 10 < pk.1 + 2 - 2 ^ (pk.2 + 1)) ∧
    [Digest.raw 5].length = (peaks 3).length ∧
    verify_range_inclusion ⟨3, [Digest.raw 5]⟩ [] 10 10
      (root_hash 3 [Digest.raw 5]) = true :=
  ⟨by decide, by decide,
   C9_outside_range_empty_elements_accepts ⟨3, [Digest.raw 5]⟩ 10 10
     (by decide) (by decide)⟩

/-- C10: peak_hash_from_range terminates for every initial call: any fuel
strictly above the subtree width two_h computes the same result as the
canonical fuel two_h + 1 used by peak_hash_from_range, and fuel exhaustion
is unreachable — the recursion is well-founded because every recursive call
halves two_h and the leaf case two_h = 1 stops. -/
theorem C10_reconstruction_terminates (node_pos two_h l r : Nat)
    (els sibs : List Digest) (f : Nat) (hf : two_h < f) :
    peakAux f node_pos two_h l r els sibs =
      peak_hash_from_range node_pos two_h l r els sibs ∧
    peak_hash_from_range node_pos two_h l r els sibs ≠ .nofuel :=
  ⟨peakAux_fuel_eq f (two_h + 1) two_h hf (Nat.lt_succ_self _) node_pos l r els sibs,
   peakAux_ne_nofuel (two_h + 1) two_h (Nat.lt_succ_self _) node_pos l r els sibs⟩

/-- C10 witness: a height-two subtree evaluated with generous fuel agrees
with peak_hash_from_range and does not exhaust fuel. -/
theorem C10_reconstruction_terminates_witness :
    (4 < 9) ∧
    (peakAux 9 6 4 4 4 [Digest.raw 0] [Digest.raw 1, Digest.raw 2] =
      peak_hash_from_range 6 4 4 4 [Digest.raw 0] [Digest.raw 1, Digest.raw 2] ∧
    peak_hash_from_range 6 4 4 4 [Digest.raw 0] [Digest.raw 1, Digest.raw 2] ≠ .nofuel) :=
  ⟨by decide,
   C10_reconstruction_terminates 6 4 4 4 [Digest.raw 0] [Digest.raw 1, Digest.raw 2] 9
     (by decide)⟩

/-- C1 (evaluation at the failing input): the claim — inserting one extra
hash at any index of an accepted proof's hashes must flip verification to
false — fails on this code.  The proof {size 1, hashes [raw 0]} with no
elements, range [5,5] and the matching bagged root is accepted; inserting a
copy of raw 0 at either possible index yields hashes [raw 0, raw 0], which
is still accepted: the extra entry at index 1 is consumed by neither cursor,
yet the value-based anti-malleability comparison sees the next-from-back
hash equal hashes[proof_hashes_used - 1] and lets it through, contradicting
the code's own stated intent of returning false whenever proof data goes
unused. -/
theorem C1_extra_duplicate_hash_accepted :
    verify_range_inclusion ⟨1, [Digest.raw 0]⟩ [] 5 5 (root_hash 1 [Digest.raw 0]) = true ∧
    verify_range_inclusion ⟨1, [Digest.raw 0, Digest.raw 0]⟩ [] 5 5
      (root_hash 1 [Digest.raw 0]) = true := by decide

/-- C5 (evaluation at the failing input): the claim — removing any single
hash from an accepted proof's hashes must flip verification to false —
fails on this code.  The proof {size 1, hashes [raw 7, raw 7]} with no
elements, range [9,9] and the bagged root of [raw 7] is accepted (its second
hash is consumed by neither cursor), and removing either copy leaves
[raw 7], which is accepted as well. -/
theorem C5_hash_removal_accepted :
    verify_range_inclusion ⟨1, [Digest.raw 7, Digest.raw 7]⟩ [] 9 9
      (root_hash 1 [Digest.raw 7]) = true ∧
    verify_range_inclusion ⟨1, [Digest.raw 7]⟩ [] 9 9
      (root_hash 1 [Digest.raw 7]) = true := by decide

/-- C2 counterexample: the code does not consume sibling hashes in the
per-node left-then-right order in which the spec's reconstruct steps are
written.  On the height-two subtree rooted at position 6 with range [4,4],
the code assigns the first backward hash (raw 1) to the right subtree's
inner sibling and the second (raw 2) to the left child, while the
literally-read reconstruct of the spec assigns them the other way around,
producing a different digest. -/
theorem C2_sibling_order_cex :
    peak_hash_from_range 6 4 4 4 [Digest.raw 0] [Digest.raw 1, Digest.raw 2] ≠
      reconstruct 6 4 4 4 [Digest.raw 0] [Digest.raw 1, Digest.raw 2] := by decide

/-- C2 amended: for an internal node whose left child subtree does not
overlap the claimed range while the right child does, the left child's hash
is popped from the backward sibling cursor only after the right child has
been fully processed: the pop draws from the cursor as the right child's
recursion left it, not from the cursor as the node found it. -/
theorem C2_left_sibling_popped_after_right (node_pos two_h l r : Nat)
    (els sibs : List Digest) (h2 : 2 ≤ two_h) (hnp : two_h ≤ node_pos)
    (hlc : node_pos - two_h < l) (hrc : node_pos - two_h < r) :
    peak_hash_from_range node_pos two_h l r els sibs =
      match peak_hash_from_range (node_pos - 1) (two_h / 2) l r els sibs with
      | .ok rh els' sibs' =>
        match sibs' with
        | lh :: rest => .ok (node_hash node_pos lh rh) els' rest
        | [] => .err
      | .err => .err
      | .panic => .panic
      | .nofuel => .nofuel := by
  have h0 : ¬ two_h = 0 := by omega
  have h1 : ¬ two_h = 1 := by omega
  have hnl : ¬ node_pos < two_h := by omega
  have hll : ¬ l ≤ node_pos - two_h := by omega
  have hpos : node_pos - two_h + two_h - 1 = node_pos - 1 := by omega
  have hfe := peakAux_fuel_eq two_h (two_h / 2 + 1) (two_h / 2) (by omega)
    (Nat.lt_succ_self _)
  cases hres : peakAux (two_h / 2 + 1) (node_pos - 1) (two_h / 2) l r els sibs with
  | ok rh els2 sibs2 =>
    unfold peak_hash_from_range
    conv_lhs => rw [peakAux.eq_def]
    simp only [if_neg h0, if_neg h1, if_neg hnl, if_neg hll, if_pos hrc, hpos, hfe, hres]
    cases sibs2 <;> rfl
  | err =>
    unfold peak_hash_from_range
    conv_lhs => rw [peakAux.eq_def]
    simp only [if_neg h0, if_neg h1, if_neg hnl, if_neg hll, if_pos hrc, hpos, hfe, hres]
  | panic =>
    unfold peak_hash_from_range
    conv_lhs => rw [peakAux.eq_def]
    simp only [if_neg h0, if_neg h1, if_neg hnl, if_neg hll, if_pos hrc, hpos, hfe, hres]
  | nofuel =>
    unfold peak_hash_from_range
    conv_lhs => rw [peakAux.eq_def]
    simp only [if_neg h0, if_neg h1, if_neg hnl, if_neg hll, if_pos hrc, hpos, hfe, hres]

/-- C2 amended witness: the counterexample subtree evaluated through the
amended statement: the left child receives raw 2, the hash remaining after
the right child's recursion consumed raw 1. -/
theorem C2_left_sibling_popped_after_right_witness :
    (2 ≤ 4 ∧ 4 ≤ 6 ∧ 6 - 4 < 4) ∧
    peak_hash_from_range 6 4 4 4 [Digest.raw 0] [Digest.raw 1, Digest.raw 2] =
      PRes.ok (node_hash 6 (Digest.raw 2)
        (node_hash 5 (Digest.raw 1) (leaf_hash 4 (Digest.raw 0)))) [] [] :=
  ⟨by decide,
   C2_left_sibling_popped_after_right 6 4 4 4 [Digest.raw 0] [Digest.raw 1, Digest.raw 2]
     (by decide) (by decide) (by decide) (by decide)⟩

end MMRVerify
